import Mathlib

/-!
Verification development for the remote diagnostic client of the
JC-ESP32P4-M3-DEV voice-assistant repository (`help_scripts/*.py`).

Strings are modelled as `List Char`.  Python's `re` module is embedded by
hand-compiling the three concrete patterns used by the scripts
(`parse_define_string` / `parse_define_int` / `parse_define_bool` in
`check_ha_logs_from_config.py` and `list_ha_states_from_config.py`) into
deterministic scanners that reproduce the leftmost-anchor search semantics of
`re.search` with `re.MULTILINE`.  Whitespace (`\s`) is modelled over the ASCII
whitespace characters recognised by Python.
-/

namespace HADiag

/-- ASCII whitespace characters matched by Python's `\s` and stripped by
`str.strip()` (` `, `\t`, `\n`, `\r`, `\f`, `\v`). -/
def isSpace (c : Char) : Bool :=
  c = ' ' || c = '\t' || c = '\n' || c = '\r' || c = '\x0c' || c = '\x0b'

/-- Python `str.lower()` restricted to ASCII. -/
def lowerL (s : List Char) : List Char := s.map Char.toLower

/-- Python `str.strip()`: remove whitespace from both ends. -/
def pyStrip (s : List Char) : List Char :=
  ((s.dropWhile isSpace).reverse.dropWhile isSpace).reverse

/-- Python substring test `needle in hay`. -/
def strContainsL (hay needle : List Char) : Bool :=
  if needle.isPrefixOf hay then true
  else
    match hay with
    | [] => false
    | _ :: t => strContainsL t needle

/-! ## ConfigExtractor: hand-compiled `re.search` for the `#define` patterns

The pattern for strings is
`^\s*#\s*define\s+NAME\s+"([^"]*)"\s*(?://.*)?$` with `re.MULTILINE`;
the integer pattern replaces the quoted group by `([0-9]+)` and the boolean
pattern by `([01]|true|false)` with `re.IGNORECASE` added.
Each alternative below is deterministic because at every choice point the
follow-set is disjoint from the character class being repeated, so greedy
maximal munch is forced and no backtracking can change the result. -/

/-- Consume the maximal `\s*` prefix. -/
def skipWs : List Char → List Char
  | [] => []
  | c :: t => if isSpace c then skipWs t else c :: t

/-- Match one literal character. -/
def expectChar (c : Char) : List Char → Option (List Char)
  | [] => none
  | x :: t => if x = c then some t else none

/-- Match a literal character sequence. -/
def expectLit : List Char → List Char → Option (List Char)
  | [], r => some r
  | _ :: _, [] => none
  | c :: l, x :: r => if x = c then expectLit l r else none

/-- Match a literal character sequence case-insensitively (`re.IGNORECASE`). -/
def expectLitCI : List Char → List Char → Option (List Char)
  | [], r => some r
  | _ :: _, [] => none
  | c :: l, x :: r => if x.toLower = c.toLower then expectLitCI l r else none

/-- Match `\s+` (at least one whitespace character, then maximal munch). -/
def ws1 : List Char → Option (List Char)
  | [] => none
  | c :: t => if isSpace c then some (skipWs t) else none

/-- Capture `([^"]*)` followed by the closing `"`. -/
def takeUntilQuote : List Char → Option (List Char × List Char)
  | [] => none
  | c :: t =>
    if c = '"' then some ([], t)
    else
      match takeUntilQuote t with
      | some (v, r) => some (c :: v, r)
      | none => none

/-- Capture `[0-9]*` by maximal munch. -/
def takeDigits : List Char → List Char × List Char
  | [] => ([], [])
  | c :: t =>
    if c.isDigit then
      let (d, r) := takeDigits t
      (c :: d, r)
    else ([], c :: t)

/-- Decide `\s*(?://.*)?$` at the current position: some amount of whitespace,
then either end-of-line (`$` in MULTILINE mode: end of text or before `\n`)
or a `//` comment, which `.*` then always extends to the end of the line. -/
def tailOk : List Char → Bool
  | [] => true
  | c :: t =>
    if c = '\n' then true
    else if c = '/' then
      match t with
      | '/' :: _ => true
      | _ => false
    else if isSpace c then tailOk t
    else false

/-- Attempt the string pattern at one anchor position; returns group 1. -/
def matchDefineStrAt (name cs : List Char) : Option (List Char) :=
  match expectChar '#' (skipWs cs) with
  | none => none
  | some r1 =>
    match expectLit ('d' :: 'e' :: 'f' :: 'i' :: 'n' :: 'e' :: []) (skipWs r1) with
    | none => none
    | some r2 =>
      match ws1 r2 with
      | none => none
      | some r3 =>
        match expectLit name r3 with
        | none => none
        | some r4 =>
          match ws1 r4 with
          | none => none
          | some r5 =>
            match expectChar '"' r5 with
            | none => none
            | some r6 =>
              match takeUntilQuote r6 with
              | none => none
              | some (v, r7) => if tailOk r7 then some v else none

/-- Attempt the integer pattern at one anchor position; returns group 1. -/
def matchDefineIntAt (name cs : List Char) : Option (List Char) :=
  match expectChar '#' (skipWs cs) with
  | none => none
  | some r1 =>
    match expectLit ('d' :: 'e' :: 'f' :: 'i' :: 'n' :: 'e' :: []) (skipWs r1) with
    | none => none
    | some r2 =>
      match ws1 r2 with
      | none => none
      | some r3 =>
        match expectLit name r3 with
        | none => none
        | some r4 =>
          match ws1 r4 with
          | none => none
          | some r5 =>
            match takeDigits r5 with
            | (d, r6) =>
              if d = [] then none
              else if tailOk r6 then some d else none

/-- Capture `([01]|true|false)` case-insensitively.  The three alternatives
start with pairwise distinct characters, so the alternation is deterministic. -/
def matchBoolVal (cs : List Char) : Option (List Char × List Char) :=
  match cs with
  | [] => none
  | c :: t =>
    if c = '0' || c = '1' then some ([c], t)
    else if lowerL (cs.take 4) = 't' :: 'r' :: 'u' :: 'e' :: [] then
      some (cs.take 4, cs.drop 4)
    else if lowerL (cs.take 5) = 'f' :: 'a' :: 'l' :: 's' :: 'e' :: [] then
      some (cs.take 5, cs.drop 5)
    else none

/-- Attempt the boolean pattern (all literals case-insensitive) at one anchor. -/
def matchDefineBoolAt (name cs : List Char) : Option (List Char) :=
  match expectChar '#' (skipWs cs) with
  | none => none
  | some r1 =>
    match expectLitCI ('d' :: 'e' :: 'f' :: 'i' :: 'n' :: 'e' :: []) (skipWs r1) with
    | none => none
    | some r2 =>
      match ws1 r2 with
      | none => none
      | some r3 =>
        match expectLitCI name r3 with
        | none => none
        | some r4 =>
          match ws1 r4 with
          | none => none
          | some r5 =>
            match matchBoolVal r5 with
            | none => none
            | some (v, r6) => if tailOk r6 then some v else none

/-- Anchor positions of `^` in MULTILINE mode other than the start of text:
the suffix after every `\n`, in left-to-right order. -/
def anchorsOf : List Char → List (List Char)
  | [] => []
  | c :: t => if c = '\n' then t :: anchorsOf t else anchorsOf t

/-- `re.search`: try the pattern at every anchor left to right, first match
wins. -/
def searchLines (f : List Char → Option (List Char)) (cs : List Char) :
    Option (List Char) :=
  (cs :: anchorsOf cs).findSome? f

/-- `parse_define_string` from `check_ha_logs_from_config.py` /
`list_ha_states_from_config.py`: regex search, then `m.group(1).strip()`. -/
def parse_define_string (src name : List Char) : Option (List Char) :=
  (searchLines (matchDefineStrAt name) src).map pyStrip

/-- Numeric value of a digit string, as computed by Python's `int`. -/
def digitsToNat (d : List Char) : Nat :=
  d.foldl (fun a c => a * 10 + (c.toNat - '0'.toNat)) 0

/-- `parse_define_int`: regex search, then `int(m.group(1))`. -/
def parse_define_int (src name : List Char) : Option Nat :=
  (searchLines (matchDefineIntAt name) src).map digitsToNat

/-- `parse_define_bool`: regex search, then
`v = m.group(1).strip().lower()`; `1/true ↦ True`, `0/false ↦ False`. -/
def parse_define_bool (src name : List Char) : Option Bool :=
  match searchLines (matchDefineBoolAt name) src with
  | none => none
  | some g =>
    let v := lowerL (pyStrip g)
    if v = ['1'] || v = 't' :: 'r' :: 'u' :: 'e' :: [] then some true
    else if v = ['0'] || v = 'f' :: 'a' :: 'l' :: 's' :: 'e' :: [] then some false
    else none

/-! ## CredentialResolver: `load_ha_secrets` of `test_websocket.py` and
`test_ha_api_direct.py`

The environment is modelled as the three optional variables read by the
scripts; the secrets file as an optional record of the three recognised keys
(`none` models "PyYAML unavailable or `esphome/secrets.yaml` missing", a key
`none` models "key absent or the YAML value is `null`").  YAML scalars for the
verify-SSL key may be strings or booleans, matching what `_to_bool` accepts. -/

/-- The environment variables consulted by `load_ha_secrets`. -/
structure EnvVars where
  baseUrl : Option (List Char)
  token : Option (List Char)
  verifySsl : Option (List Char)

/-- A YAML scalar as accepted by `_to_bool`. -/
inductive YVal where
  | s (v : List Char)
  | b (v : Bool)
deriving DecidableEq

/-- The recognised keys of `esphome/secrets.yaml`. -/
structure SecretsYaml where
  base : Option (List Char)
  token : Option (List Char)
  verify : Option YVal

/-- `_to_bool` on a string-or-absent value (environment variables):
`None ↦ default`; otherwise strip, lowercase and look the word up in the fixed
truthy/falsy vocabularies, anything else mapping to the default. -/
def toBoolStr (v : Option (List Char)) (default : Bool) : Bool :=
  match v with
  | none => default
  | some s =>
    let t := lowerL (pyStrip s)
    if ["1", "true", "yes", "y", "on"].map String.toList |>.contains t then true
    else if ["0", "false", "no", "n", "off"].map String.toList |>.contains t then false
    else default

/-- `_to_bool` on a YAML scalar: `bool` instances pass through. -/
def toBoolY (v : Option YVal) (default : Bool) : Bool :=
  match v with
  | none => default
  | some (.b b) => b
  | some (.s s) => toBoolStr (some s) default

/-- Python `a or b` for an optional string `a`: the string when truthy
(present and non-empty), else `b`. -/
def pyOrStr (a : Option (List Char)) (b : List Char) : List Char :=
  match a with
  | none => b
  | some s => if s = [] then b else s

/-- `load_ha_secrets` from `test_websocket.py`: environment first; when both
base URL and token are non-empty after stripping, return them without touching
the secrets file; otherwise fall back to the secrets file, whose non-empty
values take the field over the environment ones (`secrets.get(k) or env`). -/
def load_ha_secrets (env : EnvVars) (secretsFile : Option SecretsYaml) :
    List Char × List Char × Bool :=
  let base := pyStrip (env.baseUrl.getD [])
  let tok := pyStrip (env.token.getD [])
  let verify := toBoolStr env.verifySsl true
  if base ≠ [] ∧ tok ≠ [] then (base, tok, verify)
  else
    match secretsFile with
    | none => (base, tok, verify)
    | some sec =>
      (pyStrip (pyOrStr sec.base base), pyStrip (pyOrStr sec.token tok),
        toBoolY sec.verify verify)

/-- Python `str.rstrip("/")`. -/
def rstripSlash (s : List Char) : List Char :=
  (s.reverse.dropWhile (· = '/')).reverse

/-- `load_ha_secrets` from `test_ha_api_direct.py`: same tiers, with the base
URL additionally right-stripped of `/`. -/
def load_ha_secrets_direct (env : EnvVars) (secretsFile : Option SecretsYaml) :
    List Char × List Char × Bool :=
  let base := pyStrip (env.baseUrl.getD [])
  let tok := pyStrip (env.token.getD [])
  let verify := toBoolStr env.verifySsl true
  if base ≠ [] ∧ tok ≠ [] then (rstripSlash base, tok, verify)
  else
    match secretsFile with
    | none => (rstripSlash base, tok, verify)
    | some sec =>
      (rstripSlash (pyStrip (pyOrStr sec.base base)),
        pyStrip (pyOrStr sec.token tok), toBoolY sec.verify verify)

/-! ## TLS options (`sslopt` construction) -/

/-- The `cert_reqs` values used by the scripts. -/
inductive CertReqs where
  | certNone
  | certRequired
deriving DecidableEq

/-- The `sslopt` dictionary passed to `websocket.create_connection`; a field
`none` means the key is absent and the library default (full verification)
applies. -/
structure SslOpt where
  certReqs : Option CertReqs
  checkHostname : Option Bool
deriving DecidableEq

/-- `ws://`/`wss://` URL built by the `*_from_config.py` scripts:
`f"{scheme}://{hostname}:{port}/api/websocket"` with `scheme = "wss" if
use_ssl else "ws"`. -/
def wsUrlCfg (use_ssl : Bool) (hostname : List Char) (port : Nat) : List Char :=
  (if use_ssl then "wss".toList else "ws".toList) ++ "://".toList ++ hostname
    ++ (':' :: (Nat.repr port).toList) ++ "/api/websocket".toList

/-- `sslopt` of `check_ha_logs_from_config.py` / `list_ha_states_from_config.py`:
for every `wss://` URL the dictionary `{cert_reqs: CERT_NONE,
check_hostname: False}` is installed unconditionally. -/
def ssloptCfg (ws_url : List Char) : Option SslOpt :=
  if "wss://".toList.isPrefixOf ws_url then some ⟨some .certNone, some false⟩
  else none

/-- `sslopt` of `test_websocket.py` / `check_ha_logs.py`: for a `wss://` URL an
empty dictionary (library defaults), downgraded to
`{cert_reqs: CERT_NONE, check_hostname: False}` only when the resolved
`verify_ssl` policy is false. -/
def ssloptSecrets (ws_url : List Char) (verify_ssl : Bool) : Option SslOpt :=
  if "wss://".toList.isPrefixOf ws_url then
    if verify_ssl then some ⟨none, none⟩ else some ⟨some .certNone, some false⟩
  else none

/-- A connection skips certificate and hostname verification exactly when its
`sslopt` dictionary carries `cert_reqs: CERT_NONE`. -/
def verificationSkipped (o : Option SslOpt) : Bool :=
  match o with
  | some d => d.certReqs = some CertReqs.certNone
  | none => false

/-! ## Protocol messages and log entries

Incoming WebSocket messages are modelled as their already-parsed JSON objects
(association lists with Python-dict first-key lookup).  Log entries are flat
objects of JSON primitives, which covers the entries the Home Assistant
`system_log/list` call returns; serialisation models `json.dumps` with its
default separators on strings that need no escaping. -/

/-- A primitive JSON value inside a log entry. -/
inductive JPrim where
  | s (v : List Char)
  | b (v : Bool)
  | n (v : Int)
  | null
deriving DecidableEq

/-- A log entry: a flat JSON object in key insertion order. -/
abbrev Entry := List (List Char × JPrim)

/-- A field value of a protocol message. -/
inductive MVal where
  | s (v : List Char)
  | b (v : Bool)
  | n (v : Int)
  | null
  | entries (l : List Entry)
deriving DecidableEq

/-- A protocol message: a JSON object in key insertion order. -/
abbrev Msg := List (List Char × MVal)

/-- Python dict lookup `m.get(k)`. -/
def Msg.get (m : Msg) (k : List Char) : Option MVal :=
  (m.find? (fun p => p.1 = k)).map (·.2)

/-- Python truthiness of `m.get(k)`'s result. -/
def pyTruthy (o : Option MVal) : Bool :=
  match o with
  | none => false
  | some .null => false
  | some (.b b) => b
  | some (.n i) => i ≠ 0
  | some (.s s) => s ≠ []
  | some (.entries l) => l ≠ []

/-- `json.dumps` of a primitive (escape-free strings). -/
def serPrim : JPrim → List Char
  | .s v => '"' :: v ++ ['"']
  | .b true => "true".toList
  | .b false => "false".toList
  | .n i => (Int.repr i).toList
  | .null => "null".toList

/-- `json.dumps` of a flat entry with default separators:
`{"k": v, "k2": v2}`. -/
def serEntry (e : Entry) : List Char :=
  '{' :: (List.intercalate ", ".toList
    (e.map (fun p => '"' :: p.1 ++ '"' :: ':' :: ' ' :: serPrim p.2))) ++ ['}']

/-- `filterLogs` (ResponseFilter): the list comprehension of
`check_ha_logs_from_config.py` — keep an entry when some keyword occurs in the
lowercased `json.dumps` serialisation of the whole entry.  The scripts use
lowercase keyword literals; keywords are lowercased here so arbitrary keyword
sets match case-insensitively exactly as literal lowercase keywords do. -/
def filterLogs (entries : List Entry) (keywords : List (List Char)) :
    List Entry :=
  entries.filter (fun e =>
    keywords.any (fun kw => strContainsL (lowerL (serEntry e)) (lowerL kw)))

/-- The keyword set hard-coded in `check_ha_logs_from_config.py`. -/
def kws5 : List (List Char) :=
  ["esp32", "mqtt", "websocket", "assist", "tts"].map String.toList

/-- The spec's description of the match (for comparison with `filterLogs`):
some keyword occurs case-insensitively in one of the serialised values of the
`level`, `name` and `message` fields only. -/
def specMatchLNM (e : Entry) (keywords : List (List Char)) : Bool :=
  keywords.any (fun kw =>
    [("level" : String), "name", "message"].any (fun f =>
      match (e.find? (fun p => p.1 = f.toList)).map (·.2) with
      | some v => strContainsL (lowerL (serPrim v)) (lowerL kw)
      | none => false))

/-! ## Session runs

Each diagnostic script's behaviour after `websocket.create_connection` has
returned is a function of the sequence of incoming messages; sends always
succeed, and the one modelled source of exceptions is a receive failing (the
incoming sequence being exhausted), which in the scripts surfaces as a raised
exception at `ws.recv()`. -/

/-- The session states of the spec's SessionClient state machine. -/
inductive SessState where
  | disconnected
  | awaitingAuth
  | authenticated
  | closed
deriving DecidableEq

/-- Classification of how a run ended. -/
inductive ErrKind where
  | ok
  | authFailed
  | requestFailed
  | transportError
deriving DecidableEq

/-- Observable outcome of one `check_ha_logs_from_config.py` run (the part of
`main` after the transport is open). -/
structure RunResult where
  exitCode : Int
  kind : ErrKind
  sentAuth : Bool
  sentLogRequest : Bool
  reachedAuthenticated : Bool
  reportedTotal : Option Nat
  reportedMatches : Option Nat
  raised : Bool
  closed : Bool
  finalState : SessState
deriving DecidableEq

/-- `resp.get("result") or []`, followed by iterating the result: absent and
falsy values give the empty list; a truthy value that is not a list raises
when iterated or rendered. -/
def getResultEntries (o : Option MVal) : Except Unit (List Entry) :=
  match o with
  | none => .ok []
  | some .null => .ok []
  | some (.b false) => .ok []
  | some (.b true) => .error ()
  | some (.n i) => if i = 0 then .ok [] else .error ()
  | some (.s s) => if s = [] then .ok [] else .error ()
  | some (.entries l) => .ok l

/-- The body of `main` in `check_ha_logs_from_config.py` from line 89 on:
`recv` (auth_required), send auth, `recv` and check `auth_ok`, send
`system_log/list`, `recv` and check `success`, then count, filter with the
five hard-coded keywords and count again; `ws.close()` runs in a `finally`
block on every path. -/
def runCheckLogsCfg (incoming : List Msg) : RunResult :=
  match incoming with
  | [] =>
    ⟨1, .transportError, false, false, false, none, none, true, true, .closed⟩
  | [_] =>
    ⟨1, .transportError, true, false, false, none, none, true, true, .closed⟩
  | _ :: authResult :: rest =>
    if authResult.get "type".toList ≠ some (.s "auth_ok".toList) then
      ⟨1, .authFailed, true, false, false, none, none, false, true, .closed⟩
    else
      match rest with
      | [] =>
        ⟨1, .transportError, true, true, true, none, none, true, true, .closed⟩
      | resp :: _ =>
        if !pyTruthy (resp.get "success".toList) then
          ⟨1, .requestFailed, true, true, true, none, none, false, true, .closed⟩
        else
          match getResultEntries (resp.get "result".toList) with
          | .error _ =>
            ⟨1, .transportError, true, true, true, none, none, true, true,
              .closed⟩
          | .ok logs =>
            ⟨0, .ok, true, true, true, some logs.length,
              some (filterLogs logs kws5).length, false, true, .closed⟩

/-- Observable outcome of a run of one of the secrets-based scripts, which
have no `try/finally` around the socket. -/
structure LeakResult where
  raised : Bool
  closed : Bool
  sentAuth : Bool
  sentLogRequest : Bool
deriving DecidableEq

/-- The module body of `check_ha_logs.py` after `create_connection`: `recv`,
send auth, `recv` (the auth reply is printed but never checked), send
`system_log/list`, `recv`; both the success and the failure branch fall
through to the final `ws.close()`, but an exception at any `recv` propagates
without closing the socket. -/
def runCheckHaLogsSecrets (incoming : List Msg) : LeakResult :=
  match incoming with
  | [] => ⟨true, false, false, false⟩
  | [_] => ⟨true, false, true, false⟩
  | [_, _] => ⟨true, false, true, true⟩
  | _ :: _ :: _ :: _ => ⟨false, true, true, true⟩

/-- The module body of `test_websocket.py` after `create_connection`, inside
its `try/except`: `recv`, send auth, `recv`; on `auth_ok` send
`system_log/list` and `recv`; both the authenticated and the auth-failed
branch reach `ws.close()`, but an exception at any `recv` jumps to the
`except` handler, which never closes the socket. -/
def runTestWebsocket (incoming : List Msg) : LeakResult :=
  match incoming with
  | [] => ⟨true, false, false, false⟩
  | [_] => ⟨true, false, true, false⟩
  | [_, authResult] =>
    if authResult.get "type".toList = some (.s "auth_ok".toList) then
      ⟨true, false, true, true⟩
    else ⟨false, true, true, false⟩
  | _ :: authResult :: _ :: _ =>
    if authResult.get "type".toList = some (.s "auth_ok".toList) then
      ⟨false, true, true, true⟩
    else ⟨false, true, true, false⟩

/-! ## Concrete inputs used in counterexamples -/

/-- Environment with a non-empty base URL but no token. -/
def c1Env : EnvVars := ⟨some "http://env.example".toList, none, none⟩

/-- Secrets file disagreeing with the environment on the base URL. -/
def c1Secrets : SecretsYaml :=
  ⟨some "http://secrets.example".toList, some "tok".toList, none⟩

/-- A log entry whose `level`, `name` and `message` contain no keyword but
whose `timestamp` contains `esp32`. -/
def c6Entry : Entry :=
  [("level".toList, .s "INFO".toList),
   ("name".toList, .s "homeassistant.core".toList),
   ("message".toList, .s "started".toList),
   ("timestamp".toList, .s "2025-01-01 via esp32 bridge".toList)]

/-- Incoming messages driving `check_ha_logs_from_config.py` into the
`success: false` branch. -/
def c9Incoming : List Msg :=
  [[], [("type".toList, MVal.s "auth_ok".toList)],
   [("success".toList, MVal.b false)]]

/-! ## Well-formed whole-line definitions

These predicates spell out, as explicit decompositions of the source text,
what it means for the text to contain a whole-line `#define` of each of the
three shapes the extractors recognise: an anchor position (start of text or
right after a newline), optional whitespace, `#`, `define`, the symbol name,
the value, and a line tail that is only whitespace or a `//` comment. -/

/-- Every character is whitespace. -/
def allWs (w : List Char) : Prop := ∀ c ∈ w, isSpace c = true

/-- The source contains a whole-line string definition
`#define NAME "value"` (with optional whitespace and trailing comment). -/
def WFDefString (src name : List Char) : Prop :=
  ∃ pre w1 w2 w3 w4 v t,
    src = pre ++ w1 ++ '#' :: (w2 ++ 'd' :: 'e' :: 'f' :: 'i' :: 'n' :: 'e' ::
      (w3 ++ (name ++ (w4 ++ '"' :: (v ++ '"' :: t)))))
    ∧ (pre = [] ∨ ∃ p, pre = p ++ ['\n'])
    ∧ allWs w1 ∧ allWs w2 ∧ allWs w3 ∧ w3 ≠ [] ∧ allWs w4 ∧ w4 ≠ []
    ∧ (∀ c ∈ v, c ≠ '"') ∧ tailOk t = true

/-- The source contains a whole-line integer definition `#define NAME 123`. -/
def WFDefInt (src name : List Char) : Prop :=
  ∃ pre w1 w2 w3 w4 d t,
    src = pre ++ w1 ++ '#' :: (w2 ++ 'd' :: 'e' :: 'f' :: 'i' :: 'n' :: 'e' ::
      (w3 ++ (name ++ (w4 ++ (d ++ t)))))
    ∧ (pre = [] ∨ ∃ p, pre = p ++ ['\n'])
    ∧ allWs w1 ∧ allWs w2 ∧ allWs w3 ∧ w3 ≠ [] ∧ allWs w4 ∧ w4 ≠ []
    ∧ d ≠ [] ∧ (∀ c ∈ d, c.isDigit = true) ∧ tailOk t = true

/-- The source contains a whole-line boolean definition
`#define NAME 0|1|true|false`, all letters case-insensitive. -/
def WFDefBool (src name : List Char) : Prop :=
  ∃ pre w1 w2 d6 w3 nm w4 v t,
    src = pre ++ w1 ++ '#' :: (w2 ++ (d6 ++ (w3 ++ (nm ++ (w4 ++ (v ++ t))))))
    ∧ (pre = [] ∨ ∃ p, pre = p ++ ['\n'])
    ∧ allWs w1 ∧ allWs w2
    ∧ lowerL d6 = 'd' :: 'e' :: 'f' :: 'i' :: 'n' :: 'e' :: []
    ∧ allWs w3 ∧ w3 ≠ [] ∧ lowerL nm = lowerL name ∧ allWs w4 ∧ w4 ≠ []
    ∧ (v = ['0'] ∨ v = ['1'] ∨ lowerL v = 't' :: 'r' :: 'u' :: 'e' :: []
        ∨ lowerL v = 'f' :: 'a' :: 'l' :: 's' :: 'e' :: [])
    ∧ tailOk t = true

end HADiag

namespace HADiag

/-! ## Supporting lemmas about the pattern scanners -/

theorem skipWs_append_of_allWs (w x : List Char)
    (h : ∀ c ∈ w, isSpace c = true) : skipWs (w ++ x) = skipWs x := by
  induction w with
  | nil => rfl
  | cons c t ih =>
    have hc := h c (by simp)
    simp only [List.cons_append, skipWs, hc, if_true]
    exact ih (fun a ha => h a (by simp [ha]))

theorem skipWs_cons_of_not_space (c : Char) (x : List Char)
    (h : isSpace c = false) : skipWs (c :: x) = c :: x := by
  simp [skipWs, h]

theorem expectLit_append (l r : List Char) : expectLit l (l ++ r) = some r := by
  induction l with
  | nil => rfl
  | cons c t ih => simp [expectLit, ih]

theorem takeUntilQuote_append (v r : List Char) (h : ∀ c ∈ v, c ≠ '"') :
    takeUntilQuote (v ++ '"' :: r) = some (v, r) := by
  induction v with
  | nil => simp [takeUntilQuote]
  | cons c t ih =>
    have hc := h c (by simp)
    simp only [List.cons_append, takeUntilQuote, hc, if_false, List.append_eq,
      ih (fun a ha => h a (by simp [ha]))]

theorem exists_ws_split (x : List Char) :
    (∀ c ∈ x, isSpace c = true) ∨
      ∃ w c y, x = w ++ c :: y ∧ (∀ a ∈ w, isSpace a = true) ∧
        isSpace c = false := by
  induction x with
  | nil => exact Or.inl (by simp)
  | cons c t ih =>
    cases hc : isSpace c with
    | false => exact Or.inr ⟨[], c, t, rfl, by simp, hc⟩
    | true =>
      rcases ih with h | ⟨w, d, y, hx, hw, hd⟩
      · refine Or.inl (fun a ha => ?_)
        rcases List.mem_cons.mp ha with rfl | h2
        · exact hc
        · exact h a h2
      · refine Or.inr ⟨c :: w, d, y, by simp [hx], fun a ha => ?_, hd⟩
        rcases List.mem_cons.mp ha with rfl | h2
        · exact hc
        · exact hw a h2

theorem matchDefineStrAt_ws_append (name w x : List Char)
    (h : ∀ c ∈ w, isSpace c = true) :
    matchDefineStrAt name (w ++ x) = matchDefineStrAt name x := by
  unfold matchDefineStrAt
  rw [skipWs_append_of_allWs w x h]

theorem matchDefineStrAt_noHash (name x r : List Char)
    (hx : ∀ c ∈ x, c ≠ '#') :
    matchDefineStrAt name (x ++ r) = none ∨
      matchDefineStrAt name (x ++ r) = matchDefineStrAt name r := by
  rcases exists_ws_split x with h | ⟨w, c, y, hxe, hw, hc⟩
  · exact Or.inr (matchDefineStrAt_ws_append name x r h)
  · left
    subst hxe
    rw [List.append_assoc, List.cons_append,
      matchDefineStrAt_ws_append name w _ hw]
    unfold matchDefineStrAt
    rw [skipWs_cons_of_not_space c _ hc]
    have hch : c ≠ '#' := hx c (by simp)
    simp [expectChar, hch]

theorem anchorsOf_append (a b : List Char) :
    anchorsOf (a ++ b) = (anchorsOf a).map (· ++ b) ++ anchorsOf b := by
  induction a with
  | nil => simp [anchorsOf]
  | cons c t ih =>
    by_cases hc : c = '\n' <;> simp [anchorsOf, hc, ih]

theorem anchorsOf_eq_nil (x : List Char) (h : ∀ c ∈ x, c ≠ '\n') :
    anchorsOf x = [] := by
  induction x with
  | nil => rfl
  | cons c t ih =>
    simp [anchorsOf, h c (by simp), ih fun a ha => h a (by simp [ha])]

theorem anchorsOf_mem (x y : List Char) :
    y ∈ anchorsOf x → ∃ p, x = p ++ '\n' :: y := by
  induction x with
  | nil => intro h; simp [anchorsOf] at h
  | cons c t ih =>
    intro h
    by_cases hc : c = '\n'
    · subst hc
      simp only [anchorsOf, if_true, List.mem_cons] at h
      rcases h with h | h
      · exact ⟨[], by simp [h]⟩
      · obtain ⟨p, hp⟩ := ih h
        exact ⟨'\n' :: p, by simp [hp]⟩
    · simp only [anchorsOf, hc, if_false] at h
      obtain ⟨p, hp⟩ := ih h
      exact ⟨c :: p, by simp [hp]⟩

theorem findSome?_of_forall_prefix {α β : Type} (f : α → Option β)
    (l₁ l₂ : List α) (x : α) (v : β)
    (h₁ : ∀ y ∈ l₁, f y = none ∨ f y = some v) (h₂ : f x = some v) :
    (l₁ ++ x :: l₂).findSome? f = some v := by
  induction l₁ with
  | nil => simp [List.findSome?_cons, h₂]
  | cons a t ih =>
    rcases h₁ a (by simp) with ha | ha <;>
      simp [List.findSome?_cons, ha, ih (fun y hy => h₁ y (by simp [hy]))]

theorem ne_newline_of_not_space (c : Char) (h : isSpace c = false) :
    c ≠ '\n' := by
  intro hc
  subst hc
  exact absurd h (by decide)

theorem tailOk_newline (s : List Char) : tailOk ('\n' :: s) = true := by
  simp [tailOk]

theorem tailOk_comment (z : List Char) :
    tailOk (' ' :: '/' :: '/' :: z) = true := by
  simp [tailOk, (by decide : isSpace ' ' = true)]

theorem matchDefineStrAt_line (name value t : List Char)
    (hn : name ≠ []) (hnws : ∀ c ∈ name, isSpace c = false)
    (hv : ∀ c ∈ value, c ≠ '"') (ht : tailOk t = true) :
    matchDefineStrAt name
      ('#' :: 'd' :: 'e' :: 'f' :: 'i' :: 'n' :: 'e' :: ' ' ::
        (name ++ ' ' :: '"' :: (value ++ '"' :: t))) = some value := by
  obtain ⟨n0, name', rfl⟩ : ∃ n0 name', name = n0 :: name' := by
    cases name with
    | nil => exact absurd rfl hn
    | cons a b => exact ⟨a, b, rfl⟩
  have hn0 : isSpace n0 = false := hnws n0 (by simp)
  unfold matchDefineStrAt
  simp [skipWs, expectChar, expectLit, ws1, List.cons_append,
    expectLit_append, takeUntilQuote_append value t hv, ht, hn0,
    (by decide : isSpace '#' = false), (by decide : isSpace 'd' = false),
    (by decide : isSpace ' ' = true), (by decide : isSpace '\x22' = false)]

theorem searchLines_pre (name pre rest v : List Char)
    (hpre : pre = [] ∨ ∃ p, pre = p ++ ['\n'])
    (hhash : ∀ c ∈ pre, c ≠ '#')
    (hm : matchDefineStrAt name rest = some v) :
    searchLines (matchDefineStrAt name) (pre ++ rest) = some v := by
  rcases hpre with rfl | ⟨p, rfl⟩
  · simp only [List.nil_append, searchLines, List.findSome?_cons, hm]
  · have hsrc : (p ++ ['\n']) ++ rest = p ++ ('\n' :: rest) := by simp
    have hanch : anchorsOf (p ++ ('\n' :: rest))
        = (anchorsOf p).map (· ++ ('\n' :: rest))
          ++ (rest :: anchorsOf rest) := by
      rw [anchorsOf_append]
      simp [anchorsOf]
    have hstep : ∀ x : List Char, (∀ c ∈ x, c ≠ '#') →
        matchDefineStrAt name (x ++ ('\n' :: rest)) = none ∨
          matchDefineStrAt name (x ++ ('\n' :: rest)) = some v := by
      intro x hx
      have hx' : ∀ c ∈ x ++ ['\n'], c ≠ '#' := by
        intro c hc
        rcases List.mem_append.mp hc with h | h
        · exact hx c h
        · simp at h
          subst h
          decide
      have hd := matchDefineStrAt_noHash name (x ++ ['\n']) rest hx'
      rw [show (x ++ ['\n']) ++ rest = x ++ ('\n' :: rest) by simp] at hd
      rcases hd with h | h
      · exact Or.inl h
      · exact Or.inr (h.trans hm)
    unfold searchLines
    rw [hsrc, hanch]
    rw [show (p ++ ('\n' :: rest)) ::
        ((anchorsOf p).map (· ++ ('\n' :: rest)) ++ rest :: anchorsOf rest)
        = ((p ++ ('\n' :: rest)) :: (anchorsOf p).map (· ++ ('\n' :: rest)))
          ++ rest :: anchorsOf rest from rfl]
    apply findSome?_of_forall_prefix _ _ _ _ _ ?_ hm
    intro y hy
    rcases List.mem_cons.mp hy with rfl | hy
    · exact hstep p (fun c hc => hhash c (by simp [hc]))
    · obtain ⟨q, hq, rfl⟩ := List.mem_map.mp hy
      apply hstep q
      intro c hc
      obtain ⟨p', hp'⟩ := anchorsOf_mem p q hq
      exact hhash c (by simp [hp', hc])

/-! ## Inversion: a successful match decomposes the text -/

theorem skipWs_decomp (cs : List Char) :
    ∃ w, cs = w ++ skipWs cs ∧ ∀ c ∈ w, isSpace c = true := by
  induction cs with
  | nil => exact ⟨[], rfl, by simp⟩
  | cons c t ih =>
    cases hc : isSpace c with
    | true =>
      obtain ⟨w, hw, hws⟩ := ih
      refine ⟨c :: w, ?_, fun a ha => ?_⟩
      · have he : skipWs (c :: t) = skipWs t := by simp [skipWs, hc]
        rw [he, List.cons_append, ← hw]
      · rcases List.mem_cons.mp ha with rfl | h
        · exact hc
        · exact hws a h
    | false =>
      refine ⟨[], ?_, by simp⟩
      simp [skipWs, hc]

theorem expectChar_inv (c : Char) (cs r : List Char)
    (h : expectChar c cs = some r) : cs = c :: r := by
  cases cs with
  | nil => simp [expectChar] at h
  | cons x t =>
    simp only [expectChar] at h
    split at h
    · rename_i hx
      cases h
      rw [hx]
    · exact Option.noConfusion h

theorem expectLit_inv (l cs r : List Char) :
    expectLit l cs = some r → cs = l ++ r := by
  induction l generalizing cs with
  | nil =>
    intro h
    simp only [expectLit] at h
    cases h
    rfl
  | cons c t ih =>
    intro h
    cases cs with
    | nil => simp [expectLit] at h
    | cons x xs =>
      simp only [expectLit] at h
      split at h
      · rename_i hx
        rw [hx, List.cons_append, ← ih xs h]
      · exact Option.noConfusion h

theorem expectLitCI_inv (l cs r : List Char) :
    expectLitCI l cs = some r → ∃ m, cs = m ++ r ∧ lowerL m = lowerL l := by
  induction l generalizing cs with
  | nil =>
    intro h
    simp only [expectLitCI] at h
    cases h
    exact ⟨[], rfl, rfl⟩
  | cons c t ih =>
    intro h
    cases cs with
    | nil => simp [expectLitCI] at h
    | cons x xs =>
      simp only [expectLitCI] at h
      split at h
      · rename_i hx
        obtain ⟨m, hm, hlm⟩ := ih xs h
        refine ⟨x :: m, by simp [hm], ?_⟩
        simp only [lowerL, List.map_cons] at hlm ⊢
        rw [hx, hlm]
      · exact Option.noConfusion h

theorem ws1_inv (cs r : List Char) (h : ws1 cs = some r) :
    ∃ w, cs = w ++ r ∧ (∀ c ∈ w, isSpace c = true) ∧ w ≠ [] := by
  cases cs with
  | nil => simp [ws1] at h
  | cons c t =>
    simp only [ws1] at h
    split at h
    · rename_i hc
      cases h
      obtain ⟨w, hw, hws⟩ := skipWs_decomp t
      refine ⟨c :: w, ?_, fun a ha => ?_, by simp⟩
      · rw [List.cons_append, ← hw]
      · rcases List.mem_cons.mp ha with rfl | ha
        · exact hc
        · exact hws a ha
    · exact Option.noConfusion h

theorem takeUntilQuote_inv (cs v r : List Char) :
    takeUntilQuote cs = some (v, r) →
      cs = v ++ '"' :: r ∧ ∀ c ∈ v, c ≠ '"' := by
  induction cs generalizing v r with
  | nil => intro h; simp [takeUntilQuote] at h
  | cons c t ih =>
    intro h
    simp only [takeUntilQuote] at h
    split at h
    · rename_i hc
      cases h
      exact ⟨by simp [hc], by simp⟩
    · rename_i hc
      cases htq : takeUntilQuote t with
      | none => rw [htq] at h; exact Option.noConfusion h
      | some vr =>
        obtain ⟨v', r'⟩ := vr
        rw [htq] at h
        cases h
        obtain ⟨h1, h2⟩ := ih _ _ htq
        refine ⟨by rw [List.cons_append, ← h1], fun a ha => ?_⟩
        rcases List.mem_cons.mp ha with rfl | ha
        · exact hc
        · exact h2 a ha

theorem takeDigits_inv (cs d r : List Char) :
    takeDigits cs = (d, r) → cs = d ++ r ∧ ∀ c ∈ d, c.isDigit = true := by
  induction cs generalizing d r with
  | nil =>
    intro h
    simp only [takeDigits] at h
    cases h
    exact ⟨rfl, by simp⟩
  | cons c t ih =>
    intro h
    simp only [takeDigits] at h
    split at h
    · rename_i hc
      cases htd : takeDigits t with
      | mk d' r' =>
        rw [htd] at h
        cases h
        obtain ⟨h1, h2⟩ := ih d' r' htd
        refine ⟨by rw [List.cons_append, ← h1], fun a ha => ?_⟩
        rcases List.mem_cons.mp ha with rfl | ha
        · exact hc
        · exact h2 a ha
    · cases h
      exact ⟨rfl, by simp⟩

theorem matchBoolVal_inv (cs v r : List Char)
    (h : matchBoolVal cs = some (v, r)) :
    cs = v ++ r ∧ (v = ['0'] ∨ v = ['1'] ∨
      lowerL v = 't' :: 'r' :: 'u' :: 'e' :: [] ∨
      lowerL v = 'f' :: 'a' :: 'l' :: 's' :: 'e' :: []) := by
  cases cs with
  | nil => simp [matchBoolVal] at h
  | cons c t =>
    simp only [matchBoolVal] at h
    split at h
    · rename_i hc
      cases h
      refine ⟨rfl, ?_⟩
      simp only [Bool.or_eq_true, decide_eq_true_eq] at hc
      rcases hc with rfl | rfl
      · exact Or.inl rfl
      · exact Or.inr (Or.inl rfl)
    · split at h
      · rename_i htr
        cases h
        exact ⟨(List.take_append_drop 4 (c :: t)).symm,
          Or.inr (Or.inr (Or.inl htr))⟩
      · split at h
        · rename_i hfa
          cases h
          exact ⟨(List.take_append_drop 5 (c :: t)).symm,
            Or.inr (Or.inr (Or.inr hfa))⟩
        · exact Option.noConfusion h

theorem matchDefineStrAt_inv (name cs v : List Char)
    (h : matchDefineStrAt name cs = some v) :
    ∃ w1 w2 w3 w4 t,
      cs = w1 ++ '#' :: (w2 ++ 'd' :: 'e' :: 'f' :: 'i' :: 'n' :: 'e' ::
        (w3 ++ (name ++ (w4 ++ '"' :: (v ++ '"' :: t)))))
      ∧ allWs w1 ∧ allWs w2 ∧ allWs w3 ∧ w3 ≠ [] ∧ allWs w4 ∧ w4 ≠ []
      ∧ (∀ c ∈ v, c ≠ '"') ∧ tailOk t = true := by
  unfold matchDefineStrAt at h
  split at h
  · exact Option.noConfusion h
  rename_i r1 h1
  split at h
  · exact Option.noConfusion h
  rename_i r2 h2
  split at h
  · exact Option.noConfusion h
  rename_i r3 h3
  split at h
  · exact Option.noConfusion h
  rename_i r4 h4
  split at h
  · exact Option.noConfusion h
  rename_i r5 h5
  split at h
  · exact Option.noConfusion h
  rename_i r6 h6
  split at h
  · exact Option.noConfusion h
  rename_i v0 r7 h7
  split at h
  case isFalse => exact Option.noConfusion h
  rename_i ht7
  cases h
  obtain ⟨w1, hw1, hws1⟩ := skipWs_decomp cs
  have hc1 : skipWs cs = '#' :: r1 := expectChar_inv _ _ _ h1
  obtain ⟨w2, hw2, hws2⟩ := skipWs_decomp r1
  have hc2 : skipWs r1 = ('d' :: 'e' :: 'f' :: 'i' :: 'n' :: 'e' :: []) ++ r2 :=
    expectLit_inv _ _ _ h2
  obtain ⟨w3, hw3, hws3, h3ne⟩ := ws1_inv _ _ h3
  have hc4 : r3 = name ++ r4 := expectLit_inv _ _ _ h4
  obtain ⟨w4, hw4, hws4, h4ne⟩ := ws1_inv _ _ h5
  have hc6 : r5 = '"' :: r6 := expectChar_inv _ _ _ h6
  obtain ⟨hc7, hvq⟩ := takeUntilQuote_inv _ _ _ h7
  refine ⟨w1, w2, w3, w4, r7, ?_, hws1, hws2, hws3, h3ne, hws4, h4ne,
    hvq, ht7⟩
  rw [hw1, hc1, hw2, hc2, hw3, hc4, hw4, hc6, hc7]
  simp

theorem matchDefineIntAt_inv (name cs v : List Char)
    (h : matchDefineIntAt name cs = some v) :
    ∃ w1 w2 w3 w4 t,
      cs = w1 ++ '#' :: (w2 ++ 'd' :: 'e' :: 'f' :: 'i' :: 'n' :: 'e' ::
        (w3 ++ (name ++ (w4 ++ (v ++ t)))))
      ∧ allWs w1 ∧ allWs w2 ∧ allWs w3 ∧ w3 ≠ [] ∧ allWs w4 ∧ w4 ≠ []
      ∧ v ≠ [] ∧ (∀ c ∈ v, c.isDigit = true) ∧ tailOk t = true := by
  unfold matchDefineIntAt at h
  split at h
  · exact Option.noConfusion h
  rename_i r1 h1
  split at h
  · exact Option.noConfusion h
  rename_i r2 h2
  split at h
  · exact Option.noConfusion h
  rename_i r3 h3
  split at h
  · exact Option.noConfusion h
  rename_i r4 h4
  split at h
  · exact Option.noConfusion h
  rename_i r5 h5
  split at h
  rename_i d r6 h6
  split at h
  · exact Option.noConfusion h
  rename_i hd
  split at h
  case isFalse => exact Option.noConfusion h
  rename_i ht6
  cases h
  obtain ⟨w1, hw1, hws1⟩ := skipWs_decomp cs
  have hc1 : skipWs cs = '#' :: r1 := expectChar_inv _ _ _ h1
  obtain ⟨w2, hw2, hws2⟩ := skipWs_decomp r1
  have hc2 : skipWs r1 = ('d' :: 'e' :: 'f' :: 'i' :: 'n' :: 'e' :: []) ++ r2 :=
    expectLit_inv _ _ _ h2
  obtain ⟨w3, hw3, hws3, h3ne⟩ := ws1_inv _ _ h3
  have hc4 : r3 = name ++ r4 := expectLit_inv _ _ _ h4
  obtain ⟨w4, hw4, hws4, h4ne⟩ := ws1_inv _ _ h5
  obtain ⟨hc6, hdig⟩ := takeDigits_inv _ _ _ h6
  refine ⟨w1, w2, w3, w4, r6, ?_, hws1, hws2, hws3, h3ne, hws4, h4ne,
    hd, hdig, ht6⟩
  rw [hw1, hc1, hw2, hc2, hw3, hc4, hw4, hc6]
  simp

theorem matchDefineBoolAt_inv (name cs v : List Char)
    (h : matchDefineBoolAt name cs = some v) :
    ∃ w1 w2 d6 w3 nm w4 t,
      cs = w1 ++ '#' :: (w2 ++ (d6 ++ (w3 ++ (nm ++ (w4 ++ (v ++ t))))))
      ∧ allWs w1 ∧ allWs w2
      ∧ lowerL d6 = 'd' :: 'e' :: 'f' :: 'i' :: 'n' :: 'e' :: []
      ∧ allWs w3 ∧ w3 ≠ [] ∧ lowerL nm = lowerL name ∧ allWs w4 ∧ w4 ≠ []
      ∧ (v = ['0'] ∨ v = ['1'] ∨ lowerL v = 't' :: 'r' :: 'u' :: 'e' :: []
          ∨ lowerL v = 'f' :: 'a' :: 'l' :: 's' :: 'e' :: [])
      ∧ tailOk t = true := by
  unfold matchDefineBoolAt at h
  split at h
  · exact Option.noConfusion h
  rename_i r1 h1
  split at h
  · exact Option.noConfusion h
  rename_i r2 h2
  split at h
  · exact Option.noConfusion h
  rename_i r3 h3
  split at h
  · exact Option.noConfusion h
  rename_i r4 h4
  split at h
  · exact Option.noConfusion h
  rename_i r5 h5
  split at h
  · exact Option.noConfusion h
  rename_i v0 r6 h6
  split at h
  case isFalse => exact Option.noConfusion h
  rename_i ht6
  cases h
  obtain ⟨w1, hw1, hws1⟩ := skipWs_decomp cs
  have hc1 : skipWs cs = '#' :: r1 := expectChar_inv _ _ _ h1
  obtain ⟨w2, hw2, hws2⟩ := skipWs_decomp r1
  obtain ⟨d6, hc2, hd6⟩ := expectLitCI_inv _ _ _ h2
  obtain ⟨w3, hw3, hws3, h3ne⟩ := ws1_inv _ _ h3
  obtain ⟨nm, hc4, hnm⟩ := expectLitCI_inv _ _ _ h4
  obtain ⟨w4, hw4, hws4, h4ne⟩ := ws1_inv _ _ h5
  obtain ⟨hc6, hbv⟩ := matchBoolVal_inv _ _ _ h6
  refine ⟨w1, w2, d6, w3, nm, w4, r6, ?_, hws1, hws2, hd6, hws3, h3ne,
    hnm, hws4, h4ne, hbv, ht6⟩
  rw [hw1, hc1, hw2, hc2, hw3, hc4, hw4, hc6]

theorem searchLines_inv (f : List Char → Option (List Char)) (src v : List Char)
    (h : searchLines f src = some v) :
    ∃ pre rest, src = pre ++ rest ∧ (pre = [] ∨ ∃ p, pre = p ++ ['\n']) ∧
      f rest = some v := by
  unfold searchLines at h
  obtain ⟨x, hx, hfx⟩ := List.exists_of_findSome?_eq_some h
  rcases List.mem_cons.mp hx with rfl | hx
  · exact ⟨[], x, by simp, Or.inl rfl, hfx⟩
  · obtain ⟨p, hp⟩ := anchorsOf_mem src x hx
    exact ⟨p ++ ['\n'], x, by simp [hp], Or.inr ⟨p, rfl⟩, hfx⟩

theorem WFDefString_mem_hash (src name : List Char)
    (h : WFDefString src name) : '#' ∈ src := by
  obtain ⟨pre, w1, w2, w3, w4, v, t, heq, -⟩ := h
  rw [heq]
  simp

theorem WFDefInt_mem_hash (src name : List Char)
    (h : WFDefInt src name) : '#' ∈ src := by
  obtain ⟨pre, w1, w2, w3, w4, d, t, heq, -⟩ := h
  rw [heq]
  simp

theorem WFDefBool_mem_hash (src name : List Char)
    (h : WFDefBool src name) : '#' ∈ src := by
  obtain ⟨pre, w1, w2, d6, w3, nm, w4, v, t, heq, -⟩ := h
  rw [heq]
  simp

/-! ## Theorems -/

/-- C1 counterexample: with `HOME_ASSISTANT_BASE_URL` non-empty but the token
environment variable unset, the resolver falls to the secrets tier, where
`secrets.get(key) or env_value` lets the secrets-file base URL override the
non-empty environment base URL — the environment tier does not win per field. -/
theorem c1_counterexample :
    (load_ha_secrets c1Env (some c1Secrets)).1 = "http://secrets.example".toList ∧
      "http://secrets.example".toList ≠ "http://env.example".toList := by
  decide

/-- C1 amended: the environment wins (and the secrets file is ignored) only
when both the base URL and the token environment values are non-empty after
stripping; otherwise non-empty secrets-file values take each field over the
environment values. -/
theorem c1_amended_precedence (env : EnvVars) (sec : SecretsYaml)
    (sb st : List Char) :
    (pyStrip (env.baseUrl.getD []) ≠ [] → pyStrip (env.token.getD []) ≠ [] →
      load_ha_secrets env (some sec) =
        (pyStrip (env.baseUrl.getD []), pyStrip (env.token.getD []),
          toBoolStr env.verifySsl true)) ∧
    (¬(pyStrip (env.baseUrl.getD []) ≠ [] ∧ pyStrip (env.token.getD []) ≠ []) →
      sec.base = some sb → sb ≠ [] → sec.token = some st → st ≠ [] →
      load_ha_secrets env (some sec) =
        (pyStrip sb, pyStrip st,
          toBoolY sec.verify (toBoolStr env.verifySsl true))) := by
  constructor
  · intro hb ht
    simp only [load_ha_secrets]
    rw [if_pos ⟨hb, ht⟩]
  · intro h hsb hb hst ht
    simp only [load_ha_secrets]
    rw [if_neg h, hsb, hst]
    simp [pyOrStr, hb, ht]

/-- Witness for `c1_amended_precedence` at concrete inputs. -/
theorem c1_amended_precedence_witness :
    load_ha_secrets c1Env (some c1Secrets) =
      ("http://secrets.example".toList, "tok".toList, true) := by
  have h := (c1_amended_precedence c1Env c1Secrets
      "http://secrets.example".toList "tok".toList).2
      (by decide) (by decide) (by decide) (by decide) (by decide)
  simpa using h

/-- C2 counterexample: the config-header scripts build
`{cert_reqs: CERT_NONE, check_hostname: False}` for every `wss://` URL; no
opt-out input exists in that flow, so verification is skipped by default. -/
theorem c2_counterexample :
    verificationSkipped (ssloptCfg (wsUrlCfg true "ha.local".toList 8123))
      = true := by decide

/-- C2 amended: in the secrets-based clients verification is skipped exactly
when the connection is `wss://` and the resolved `verify_ssl` policy is false;
in the config-header clients every `wss://` connection skips verification,
unconditionally. -/
theorem c2_amended_tls_skip :
    (∀ url verify, verificationSkipped (ssloptSecrets url verify)
        = ("wss://".toList.isPrefixOf url && !verify)) ∧
    (∀ host port,
      verificationSkipped (ssloptCfg (wsUrlCfg true host port)) = true) ∧
    (∀ host port,
      verificationSkipped (ssloptCfg (wsUrlCfg false host port)) = false) := by
  refine ⟨fun url verify => ?_, fun host port => ?_, fun host port => ?_⟩
  · cases hb : "wss://".toList.isPrefixOf url <;> cases verify <;>
      simp only [ssloptSecrets, verificationSkipped] <;> rw [hb] <;> simp
  · have hpre : "wss://".toList.isPrefixOf (wsUrlCfg true host port) = true := by
      rw [List.isPrefixOf_iff_prefix]
      refine ⟨host ++ (':' :: (Nat.repr port).toList) ++ "/api/websocket".toList,
        ?_⟩
      simp [wsUrlCfg]
    simp only [ssloptCfg, verificationSkipped]
    rw [hpre]
    simp
  · have hpre : "wss://".toList.isPrefixOf (wsUrlCfg false host port) = false := by
      rw [Bool.eq_false_iff]
      intro hc
      rw [List.isPrefixOf_iff_prefix] at hc
      obtain ⟨t, ht⟩ := hc
      simp only [wsUrlCfg] at ht
      simp at ht
    simp only [ssloptCfg, verificationSkipped]
    rw [hpre]
    simp

/-- C3 counterexample: with the transport open, a receive failure in
`check_ha_logs.py` propagates without closing the socket, and likewise in
`test_websocket.py` after a successful auth reply. -/
theorem c3_counterexample :
    (runCheckHaLogsSecrets []).closed = false ∧
      (runTestWebsocket [[], [("type".toList, MVal.s "auth_ok".toList)]]).closed
        = false := by decide

/-- C3 amended: the config-header script closes the transport on every exit
path (`try/finally`); the secrets-based scripts close it exactly on the paths
on which no exception is raised during send/receive — a raised exception
leaves the socket open. -/
theorem c3_amended_close_paths :
    (∀ incoming, (runCheckLogsCfg incoming).closed = true) ∧
    (∀ incoming, (runCheckHaLogsSecrets incoming).closed
        = !(runCheckHaLogsSecrets incoming).raised) ∧
    (∀ incoming, (runTestWebsocket incoming).closed
        = !(runTestWebsocket incoming).raised) := by
  refine ⟨fun incoming => ?_, fun incoming => ?_, fun incoming => ?_⟩
  · match incoming with
    | [] => rfl
    | [_] => rfl
    | _ :: authResult :: rest =>
      cases rest with
      | nil =>
        simp only [runCheckLogsCfg]
        split <;> rfl
      | cons resp rest2 =>
        simp only [runCheckLogsCfg]
        split
        · rfl
        · split
          · rfl
          · split <;> rfl
  · match incoming with
    | [] => rfl
    | [_] => rfl
    | [_, _] => rfl
    | _ :: _ :: _ :: _ => rfl
  · match incoming with
    | [] => rfl
    | [_] => rfl
    | [_, authResult] => simp only [runTestWebsocket]; split <;> rfl
    | _ :: _ :: _ :: _ => simp only [runTestWebsocket]; split <;> rfl

/-- C4: for every source text made of a `#`-free anchored prefix, a whole
line `#define NAME "value"` optionally followed by a trailing `//` line
comment, and any further lines, `extractString` returns exactly the quoted
value with the comment stripped and surrounding whitespace trimmed; and a
definition embedded behind other text on its line (not anchored as a whole
line) does not match. -/
theorem c4_extract_string_whole_line
    (pre name value comment suf t junk w jr : List Char) (c0 : Char)
    (hpre : pre = [] ∨ ∃ p, pre = p ++ ['\n'])
    (hpreHash : ∀ c ∈ pre, c ≠ '#')
    (hn : name ≠ []) (hnws : ∀ c ∈ name, isSpace c = false)
    (hvq : ∀ c ∈ value, c ≠ '"') (hvnl : ∀ c ∈ value, c ≠ '\n')
    (ht : t = [] ∨ t = ' ' :: '/' :: '/' :: comment)
    (hsuf : suf = [] ∨ ∃ s, suf = '\n' :: s)
    (hjunk : junk = w ++ c0 :: jr) (hw : ∀ a ∈ w, isSpace a = true)
    (hc0s : isSpace c0 = false) (hc0h : c0 ≠ '#')
    (hjnl : ∀ c ∈ junk, c ≠ '\n') :
    parse_define_string
        (pre ++ ('#' :: 'd' :: 'e' :: 'f' :: 'i' :: 'n' :: 'e' :: ' ' ::
          (name ++ ' ' :: '"' :: (value ++ '"' :: (t ++ suf))))) name
      = some (pyStrip value) ∧
    parse_define_string
        (junk ++ ('#' :: 'd' :: 'e' :: 'f' :: 'i' :: 'n' :: 'e' :: ' ' ::
          (name ++ ' ' :: '"' :: (value ++ '"' :: [])))) name = none := by
  constructor
  · have htail : tailOk (t ++ suf) = true := by
      rcases ht with rfl | rfl
      · rcases hsuf with rfl | ⟨s, rfl⟩
        · rfl
        · exact tailOk_newline s
      · rw [show (' ' :: '/' :: '/' :: comment) ++ suf
            = ' ' :: '/' :: '/' :: (comment ++ suf) by simp]
        exact tailOk_comment (comment ++ suf)
    have hm := matchDefineStrAt_line name value (t ++ suf) hn hnws hvq htail
    unfold parse_define_string
    rw [searchLines_pre name pre _ value hpre hpreHash hm]
    rfl
  · have hlinenl : ∀ c ∈ junk ++ ('#' :: 'd' :: 'e' :: 'f' :: 'i' :: 'n' ::
        'e' :: ' ' :: (name ++ ' ' :: '"' ::
          (value ++ '"' :: ([] : List Char)))), c ≠ '\n' := by
      intro c hc
      rcases List.mem_append.mp hc with h | h
      · exact hjnl c h
      · simp only [List.mem_cons] at h
        rcases h with rfl | rfl | rfl | rfl | rfl | rfl | rfl | rfl | h
        · decide
        · decide
        · decide
        · decide
        · decide
        · decide
        · decide
        · decide
        · rcases List.mem_append.mp h with h2 | h2
          · exact ne_newline_of_not_space c (hnws c h2)
          · simp only [List.mem_cons] at h2
            rcases h2 with rfl | rfl | h2
            · decide
            · decide
            · rcases List.mem_append.mp h2 with h3 | h3
              · exact hvnl c h3
              · simp at h3
                subst h3
                decide
    unfold parse_define_string searchLines
    rw [anchorsOf_eq_nil _ hlinenl]
    have hfail : matchDefineStrAt name (junk ++ ('#' :: 'd' :: 'e' :: 'f' ::
        'i' :: 'n' :: 'e' :: ' ' :: (name ++ ' ' :: '"' ::
          (value ++ '"' :: ([] : List Char))))) = none := by
      subst hjunk
      rw [List.append_assoc, matchDefineStrAt_ws_append name w _ hw,
        List.cons_append]
      unfold matchDefineStrAt
      rw [skipWs_cons_of_not_space c0 _ hc0s]
      simp [expectChar, hc0h]
    simp [List.findSome?_cons, hfail]

/-- Witness for `c4_extract_string_whole_line`: a header line, a definition
with inner padding and a trailing comment, and a following line; and the same
definition embedded after `  x` on one line. -/
theorem c4_extract_string_whole_line_witness :
    parse_define_string
        ("// header\n".toList ++ ('#' :: 'd' :: 'e' :: 'f' :: 'i' :: 'n' ::
          'e' :: ' ' :: ("HA_HOST".toList ++ ' ' :: '"' ::
            ("  ha.local ".toList ++ '"' ::
              ((' ' :: '/' :: '/' :: " host".toList) ++ "\nrest".toList)))))
        "HA_HOST".toList
      = some "ha.local".toList ∧
    parse_define_string
        ("  x".toList ++ ('#' :: 'd' :: 'e' :: 'f' :: 'i' :: 'n' :: 'e' ::
          ' ' :: ("HA_HOST".toList ++ ' ' :: '"' ::
            ("  ha.local ".toList ++ '"' :: []))))
        "HA_HOST".toList = none :=
  c4_extract_string_whole_line "// header\n".toList "HA_HOST".toList
    "  ha.local ".toList " host".toList "\nrest".toList
    (' ' :: '/' :: '/' :: " host".toList) "  x".toList "  ".toList [] 'x'
    (Or.inr ⟨"// header".toList, by decide⟩) (by decide) (by decide)
    (by decide) (by decide) (by decide) (Or.inr rfl)
    (Or.inr ⟨"rest".toList, by decide⟩) (by decide) (by decide) (by decide)
    (by decide) (by decide)

/-- C5: when the source text contains no well-formed whole-line definition of
the symbol (absent or malformed), each of the three extractors returns absent
(`none`).  The extractors are total functions into `Option`, so no error is
ever raised; this theorem is proved by inversion: a successful match forces a
well-formed whole-line definition to be present. -/
theorem c5_absent_or_malformed (src name : List Char)
    (hs : ¬WFDefString src name) (hi : ¬WFDefInt src name)
    (hb : ¬WFDefBool src name) :
    parse_define_string src name = none ∧ parse_define_int src name = none ∧
      parse_define_bool src name = none := by
  refine ⟨?_, ?_, ?_⟩
  · cases hp : parse_define_string src name with
    | none => rfl
    | some v =>
      exfalso
      apply hs
      unfold parse_define_string at hp
      obtain ⟨g, hg, -⟩ := Option.map_eq_some'.mp hp
      obtain ⟨pre, rest, hsrc, hanc, hm⟩ := searchLines_inv _ _ _ hg
      obtain ⟨w1, w2, w3, w4, t, heq, hws1, hws2, hws3, h3ne, hws4, h4ne,
        hvq, htl⟩ := matchDefineStrAt_inv name rest g hm
      exact ⟨pre, w1, w2, w3, w4, g, t, by rw [hsrc, heq]; simp, hanc,
        hws1, hws2, hws3, h3ne, hws4, h4ne, hvq, htl⟩
  · cases hp : parse_define_int src name with
    | none => rfl
    | some v =>
      exfalso
      apply hi
      unfold parse_define_int at hp
      obtain ⟨g, hg, -⟩ := Option.map_eq_some'.mp hp
      obtain ⟨pre, rest, hsrc, hanc, hm⟩ := searchLines_inv _ _ _ hg
      obtain ⟨w1, w2, w3, w4, t, heq, hws1, hws2, hws3, h3ne, hws4, h4ne,
        hne, hdig, htl⟩ := matchDefineIntAt_inv name rest g hm
      exact ⟨pre, w1, w2, w3, w4, g, t, by rw [hsrc, heq]; simp, hanc,
        hws1, hws2, hws3, h3ne, hws4, h4ne, hne, hdig, htl⟩
  · cases hp : parse_define_bool src name with
    | none => rfl
    | some v =>
      exfalso
      apply hb
      unfold parse_define_bool at hp
      cases hg : searchLines (matchDefineBoolAt name) src with
      | none => rw [hg] at hp; exact Option.noConfusion hp
      | some g =>
        obtain ⟨pre, rest, hsrc, hanc, hm⟩ := searchLines_inv _ _ _ hg
        obtain ⟨w1, w2, d6, w3, nm, w4, t, heq, hws1, hws2, hd6, hws3, h3ne,
          hnm, hws4, h4ne, hbv, htl⟩ := matchDefineBoolAt_inv name rest g hm
        exact ⟨pre, w1, w2, d6, w3, nm, w4, g, t, by rw [hsrc, heq]; simp,
          hanc, hws1, hws2, hd6, hws3, h3ne, hnm, hws4, h4ne, hbv, htl⟩

/-- Witness for `c5_absent_or_malformed` on a source with no `#` at all:
no well-formed definition of any shape can occur in it. -/
theorem c5_absent_or_malformed_witness :
    parse_define_string "no define here\n".toList "HA_HOST".toList = none ∧
    parse_define_int "no define here\n".toList "HA_HOST".toList = none ∧
    parse_define_bool "no define here\n".toList "HA_HOST".toList = none :=
  c5_absent_or_malformed "no define here\n".toList "HA_HOST".toList
    (fun h => absurd (WFDefString_mem_hash _ _ h) (by decide))
    (fun h => absurd (WFDefInt_mem_hash _ _ h) (by decide))
    (fun h => absurd (WFDefBool_mem_hash _ _ h) (by decide))

/-- C6 counterexample: an entry whose `level`, `name` and `message` contain no
keyword is nevertheless kept, because the scripts match against the
serialisation of the whole entry and the `timestamp` field contains `esp32`. -/
theorem c6_counterexample :
    filterLogs [c6Entry] ["esp32".toList] = [c6Entry] ∧
      specMatchLNM c6Entry ["esp32".toList] = false := by decide

/-- C6 amended: an entry is kept by `filterLogs` iff it occurs in the input
and some keyword appears case-insensitively in the `json.dumps` serialisation
of the whole entry (all keys and values, not only level/name/message). -/
theorem c6_amended_filter_semantics (entries : List Entry)
    (kws : List (List Char)) (e : Entry) :
    e ∈ filterLogs entries kws ↔
      e ∈ entries ∧
        ∃ kw ∈ kws, strContainsL (lowerL (serEntry e)) (lowerL kw) = true := by
  simp [filterLogs, List.mem_filter, List.any_eq_true]

/-- C7: filtering twice with the same keyword set equals filtering once, and
the kept entries form a sublist of the input (relative order preserved, no
deduplication). -/
theorem c7_filter_idempotent_ordered (entries : List Entry)
    (kws : List (List Char)) :
    filterLogs (filterLogs entries kws) kws = filterLogs entries kws ∧
      (filterLogs entries kws).Sublist entries := by
  constructor
  · simp only [filterLogs, List.filter_filter, Bool.and_self]
  · exact List.filter_sublist _

/-- C8: when the reply to the auth message is anything but `auth_ok`, the run
fails as an authentication failure with exit code 1; the session is closed,
never reaches Authenticated, and no data request is sent. -/
theorem c8_auth_invalid (m1 m2 : Msg) (rest : List Msg)
    (h : m2.get "type".toList ≠ some (.s "auth_ok".toList)) :
    (runCheckLogsCfg (m1 :: m2 :: rest)).kind = .authFailed ∧
    (runCheckLogsCfg (m1 :: m2 :: rest)).finalState = .closed ∧
    (runCheckLogsCfg (m1 :: m2 :: rest)).reachedAuthenticated = false ∧
    (runCheckLogsCfg (m1 :: m2 :: rest)).sentLogRequest = false ∧
    (runCheckLogsCfg (m1 :: m2 :: rest)).closed = true ∧
    (runCheckLogsCfg (m1 :: m2 :: rest)).exitCode = 1 := by
  simp only [runCheckLogsCfg]
  rw [if_pos h]
  exact ⟨rfl, rfl, rfl, rfl, rfl, rfl⟩

/-- Witness for `c8_auth_invalid` on an `auth_invalid` reply. -/
theorem c8_auth_invalid_witness :
    (runCheckLogsCfg [[], [("type".toList, MVal.s "auth_invalid".toList)]]).kind
        = .authFailed ∧
    (runCheckLogsCfg [[], [("type".toList, MVal.s "auth_invalid".toList)]]).finalState
        = .closed ∧
    (runCheckLogsCfg [[], [("type".toList, MVal.s "auth_invalid".toList)]]).reachedAuthenticated
        = false ∧
    (runCheckLogsCfg [[], [("type".toList, MVal.s "auth_invalid".toList)]]).sentLogRequest
        = false ∧
    (runCheckLogsCfg [[], [("type".toList, MVal.s "auth_invalid".toList)]]).closed
        = true ∧
    (runCheckLogsCfg [[], [("type".toList, MVal.s "auth_invalid".toList)]]).exitCode
        = 1 :=
  c8_auth_invalid [] [("type".toList, MVal.s "auth_invalid".toList)] []
    (by decide)

/-- C9 counterexample: on a well-formed `success: false` response the run
reports the failure without raising, but it does not continue — it returns
exit code 1 and never reports a (zero) match count. -/
theorem c9_counterexample :
    (runCheckLogsCfg c9Incoming).raised = false ∧
    (runCheckLogsCfg c9Incoming).kind = .requestFailed ∧
    (runCheckLogsCfg c9Incoming).reportedMatches = none ∧
    (runCheckLogsCfg c9Incoming).reportedMatches ≠ some 0 := by decide

/-- C9 amended: a well-formed `success: false` response is reported without
raising and the transport is closed, but the run stops with exit code 1
before any filtering or summary — no totals and no match count are reported. -/
theorem c9_amended_request_failed (m1 m2 m3 : Msg) (rest : List Msg)
    (h2 : m2.get "type".toList = some (.s "auth_ok".toList))
    (h3 : pyTruthy (m3.get "success".toList) = false) :
    (runCheckLogsCfg (m1 :: m2 :: m3 :: rest)).kind = .requestFailed ∧
    (runCheckLogsCfg (m1 :: m2 :: m3 :: rest)).raised = false ∧
    (runCheckLogsCfg (m1 :: m2 :: m3 :: rest)).closed = true ∧
    (runCheckLogsCfg (m1 :: m2 :: m3 :: rest)).exitCode = 1 ∧
    (runCheckLogsCfg (m1 :: m2 :: m3 :: rest)).reportedTotal = none ∧
    (runCheckLogsCfg (m1 :: m2 :: m3 :: rest)).reportedMatches = none := by
  simp only [runCheckLogsCfg, h2, h3]
  norm_num

/-- Witness for `c9_amended_request_failed` at the concrete failing exchange. -/
theorem c9_amended_request_failed_witness :
    (runCheckLogsCfg c9Incoming).kind = .requestFailed ∧
    (runCheckLogsCfg c9Incoming).raised = false ∧
    (runCheckLogsCfg c9Incoming).closed = true ∧
    (runCheckLogsCfg c9Incoming).exitCode = 1 ∧
    (runCheckLogsCfg c9Incoming).reportedTotal = none ∧
    (runCheckLogsCfg c9Incoming).reportedMatches = none :=
  c9_amended_request_failed [] [("type".toList, MVal.s "auth_ok".toList)]
    [("success".toList, MVal.b false)] [] (by decide) (by decide)

/-- C10: when both credential environment variables are non-empty after
stripping, resolution is independent of the secrets file (two runs differing
only in the secrets file resolve identically) and returns the environment
values with the environment TLS policy; the same holds for the HTTP variant. -/
theorem c10_env_noninterference (env : EnvVars) (s1 s2 : Option SecretsYaml)
    (hb : pyStrip (env.baseUrl.getD []) ≠ [])
    (ht : pyStrip (env.token.getD []) ≠ []) :
    load_ha_secrets env s1 = load_ha_secrets env s2 ∧
    load_ha_secrets env s1 =
      (pyStrip (env.baseUrl.getD []), pyStrip (env.token.getD []),
        toBoolStr env.verifySsl true) ∧
    load_ha_secrets_direct env s1 = load_ha_secrets_direct env s2 := by
  refine ⟨?_, ?_, ?_⟩ <;>
    simp only [load_ha_secrets, load_ha_secrets_direct] <;>
    rw [if_pos ⟨hb, ht⟩] <;>
    first
      | rfl
      | rw [if_pos ⟨hb, ht⟩]

/-- Witness for `c10_env_noninterference`: a fully-set environment against an
absent secrets file and a disagreeing one. -/
theorem c10_env_noninterference_witness :
    load_ha_secrets ⟨some "http://e".toList, some "t".toList, some "no".toList⟩
        none
      = load_ha_secrets ⟨some "http://e".toList, some "t".toList,
          some "no".toList⟩ (some c1Secrets) ∧
    load_ha_secrets ⟨some "http://e".toList, some "t".toList, some "no".toList⟩
        none
      = ("http://e".toList, "t".toList, false) ∧
    load_ha_secrets_direct ⟨some "http://e".toList, some "t".toList,
        some "no".toList⟩ none
      = load_ha_secrets_direct ⟨some "http://e".toList, some "t".toList,
          some "no".toList⟩ (some c1Secrets) := by
  have h := c10_env_noninterference
    ⟨some "http://e".toList, some "t".toList, some "no".toList⟩
    none (some c1Secrets) (by decide) (by decide)
  refine ⟨h.1, ?_, h.2.2⟩
  rw [h.2.1]
  decide

end HADiag
